import Mathlib

/-!
Shallow embedding of `vanilla/core.py` (`Scheduler` and `Hub`), used to check
the natural-language specification of the repository against the code.

Modelling conventions:
* Times (`time.time()` values, delays, timeouts) are modelled as integers,
  all in milliseconds. The source keeps timestamps as float seconds and
  converts millisecond delays by `/ 1000.0`; measuring timestamps in
  milliseconds instead turns `time.time() + delay / 1000.0` into
  `now + delay` exactly, and every comparison the code performs on times
  (order, sign, `min`, the `-1` sentinels) is preserved by the unit change.
* `time.time()` is passed explicitly as a `now : ℤ` argument; within one
  `pump` tick the clock is modelled as frozen.
* Greenlets (tasks) are identified by natural numbers.
* The heap `self.queue` managed by `heapq` is modelled as a list together
  with a deterministic minimum-selection function `peekMin`; Python 2 breaks
  due-time ties by comparing arbitrary objects, so any deterministic
  tie-break is a faithful refinement ("heap order" below means the order in
  which successive minima are popped).
* `while` loops that terminate by physically shrinking the heap are given
  explicit fuel (always called with fuel larger than the queue size), so all
  definitions compute by `decide` / `rfl`.
* Exceptions escaping a function are modelled by `Option`/`Except` results
  (`none` / `.error` = the Python call raised).
-/

namespace Vanilla

/-- Python values that flow through the scheduler in `core.py`: ordinary
resume payloads, and the `vanilla.exception.Timeout` / `Stop` exception
instances that are passed as payloads (the source attaches a message string
to them; the message plays no role in any control decision and is dropped). -/
inductive Value where
  | unit
  | bool (b : Bool)
  | nat (n : Nat)
  | timeoutExc
  | stopExc
  | events (evs : List (Nat × Nat))
deriving DecidableEq, Repr

/-- Embeds `isinstance(resume, vanilla.exception.Timeout)` from `Hub.pause`. -/
def Value.isTimeout : Value → Bool
  | .timeoutExc => true
  | _ => false

/-- Embeds `Scheduler.Item`, the namedtuple `('due', 'action', 'args')`.
`action` is a greenlet or callable, modelled by its identity. -/
structure Item where
  due : ℤ
  action : Nat
  args : List Value
deriving DecidableEq, Repr

/-- The heap top `queue[0]`: a deterministic choice of an element with the
minimal `due` (first such element of the list). -/
def peekMin : List Item → Option Item
  | [] => none
  | x :: xs =>
    match peekMin xs with
    | none => some x
    | some y => if x.due ≤ y.due then some x else some y

/-- The live (not lazily-cancelled) items of a queue, in queue order. -/
def liveList (q removed : List Item) : List Item :=
  q.filter (fun i => decide (i ∉ removed))

/-- Embeds `class Scheduler(object)` from `core.py`: a min-heap of items with a lazy
removal set (`self.removed`, a dict used as a set of items) and a logical
live count (`self.count`). -/
structure Scheduler where
  count : Int
  queue : List Item
  removed : List Item
deriving DecidableEq, Repr

namespace Scheduler

/-- Embeds `Scheduler.__init__`. -/
def init : Scheduler := ⟨0, [], []⟩

/-- The item built by `Scheduler.add`: `due = time.time() + delay / 1000.0`.
With all model times in milliseconds this is exactly `now + delay` (the
source keeps timestamps in seconds and converts the millisecond delay;
the unit change is a positive scaling that affects no comparison the code
performs). -/
def mkItem (now delay : ℤ) (action : Nat) (args : List Value) : Item :=
  ⟨now + delay, action, args⟩

/-- Embeds `Scheduler.add(delay, action, *args)`: pushes the item and increments the
live count; returns the item (the heap push is modelled by appending — the
heap is a multiset with `peekMin` selecting the top). -/
def add (s : Scheduler) (now delay : ℤ) (action : Nat) (args : List Value) :
    Scheduler × Item :=
  let item := mkItem now delay action args
  ({ count := s.count + 1, queue := s.queue ++ [item], removed := s.removed }, item)

/-- Embeds `Scheduler.remove(item)`: flags the item in the removal dict and
decrements the live count (lazy deletion). -/
def remove (s : Scheduler) (item : Item) : Scheduler :=
  { s with removed := s.removed.insert item, count := s.count - 1 }

/-- Embeds the `Scheduler.prune` loop body, with explicit fuel. `none` models the
`IndexError` the source raises from `self.queue[0]` on an empty queue (fuel
is always supplied larger than the number of iterations possible). -/
def pruneGo : Nat → List Item → List Item → Option (List Item × List Item)
  | 0, _, _ => none
  | fuel + 1, q, r =>
    match peekMin q with
    | none => none
    | some top =>
      if top ∈ r then pruneGo fuel (q.erase top) (r.erase top)
      else some (q, r)

/-- Embeds `Scheduler.prune()`: pop cancelled items off the top until the top is
live (deleting their removal flags). -/
def prune (s : Scheduler) : Option Scheduler :=
  (pruneGo (s.queue.length + 1) s.queue s.removed).map
    fun p => { s with queue := p.1, removed := p.2 }

/-- Embeds `Scheduler.timeout()`: prune, then `queue[0].due - time.time()`.
Returns the mutated (pruned) scheduler alongside the value. -/
def timeout (s : Scheduler) (now : ℤ) : Option (Scheduler × ℤ) :=
  (prune s).bind fun s1 =>
    (peekMin s1.queue).map fun top => (s1, top.due - now)

/-- Embeds `Scheduler.pop()`: prune, pop the top item, decrement the live count.
The source returns `(item.action, item.args)`; the model returns the item
and callers project. -/
def pop (s : Scheduler) : Option (Scheduler × Item) :=
  (prune s).bind fun s1 =>
    (peekMin s1.queue).map fun top =>
      ({ s1 with queue := s1.queue.erase top, count := s1.count - 1 }, top)

/-- The number of live items actually represented by the structure. -/
def live (s : Scheduler) : Nat := (liveList s.queue s.removed).length

/-- Well-formedness of a scheduler state, as produced by well-formed use of
the API: distinct items, removal flags only for items still physically in
the queue, and the logical count agreeing with the live count. -/
def WF (s : Scheduler) : Prop :=
  s.queue.Nodup ∧ s.removed.Nodup ∧ (∀ i ∈ s.removed, i ∈ s.queue) ∧
    s.count = (s.live : Int)

instance (s : Scheduler) : Decidable (WF s) := by
  unfold WF; infer_instance

end Scheduler

/-- One scheduler API call, for reasoning over arbitrary call sequences. -/
inductive SchedOp where
  | addOp (now delay : ℤ) (action : Nat) (args : List Value)
  | removeOp (item : Item)
  | popOp
deriving DecidableEq

/-- Apply one scheduler call (`none` models an escaping exception). -/
def applyOp (s : Scheduler) : SchedOp → Option Scheduler
  | .addOp now delay action args => some (s.add now delay action args).1
  | .removeOp item => some (s.remove item)
  | .popOp => s.pop.map Prod.fst

/-- Apply a sequence of scheduler calls. -/
def applyOps : Scheduler → List SchedOp → Option Scheduler
  | s, [] => some s
  | s, op :: ops => (applyOp s op).bind (fun s' => applyOps s' ops)

/-- Well-formed use of the scheduler API, mirroring how `core.py` uses it:
every added item is distinct from those pending, `remove` is only called on
an item that is live (scheduled and not yet cancelled), and `pop` only when
the live count is positive. -/
def validOps : Scheduler → List SchedOp → Bool
  | _, [] => true
  | s, .addOp now delay action args :: ops =>
    decide (Scheduler.mkItem now delay action args ∉ s.queue) &&
      validOps (s.add now delay action args).1 ops
  | s, .removeOp item :: ops =>
    (decide (item ∈ s.queue) && decide (item ∉ s.removed)) &&
      validOps (s.remove item) ops
  | s, .popOp :: ops =>
    decide (s.live ≠ 0) &&
      match s.pop with
      | some p => validOps p.1 ops
      | none => false

/-! ## Hub

`class Hub(object)` from `core.py`. A ready-deque entry `(task, args)`;
tasks and callables are modelled by identity. `run_task(task, *a)` switches
into user code; its effect on the hub is abstracted as the list of entries
the task appends to `self.ready` before it suspends again (an environment
`env : Entry → List Entry` supplied to the model — effects of user code on
the other hub fields are outside the modelled tick). -/

/-- An entry of the Ready Deque: `(task, args)`. -/
structure Entry where
  task : Nat
  args : List Value
deriving DecidableEq

/-- The snapshot drain of `Hub.pump` (its step 2):
`ready = self.ready; self.ready = collections.deque();`
`while ready: task, a = ready.popleft(); self.run_task(task, *a)`.
First component: the entries run, in execution order. Second: the state of
the fresh `self.ready` after the drain (`acc` is its current state, each
run's appends land there). -/
def drainReady (env : Entry → List Entry) :
    List Entry → List Entry → List Entry × List Entry
  | [], acc => ([], acc)
  | e :: rest, acc =>
    let r := drainReady env rest (acc ++ env e)
    (e :: r.1, r.2)

/-- The outcome of a suspension point, as observed by the suspended task:
the Python call either returns a value or raises one. -/
inductive TaskResume where
  | ret (v : Value)
  | raised (v : Value)
deriving DecidableEq

def TaskResume.isRaised : TaskResume → Bool
  | .raised _ => true
  | _ => false

/-- First half of `Hub.pause(timeout)` (`core.py` 251–258), up to the
`self.loop.switch()`: when `timeout > -1`, schedule a timeout item whose
action is the current task and whose payload is a `Timeout` instance. -/
def pauseSchedule (s : Scheduler) (now timeout : ℤ) (current : Nat) :
    Scheduler × Option Item :=
  if timeout > -1 then
    let p := s.add now timeout current [Value.timeoutExc]
    (p.1, some p.2)
  else (s, none)

/-- Second half of `Hub.pause(timeout)` (`core.py` 260–273), from the return
of `self.loop.switch()`: if a timeout was scheduled and the resume value is
not a `Timeout` instance, cancel the scheduled item; then `return resume`
(the source returns the resume value unconditionally — there is no raise). -/
def pauseReturn (s : Scheduler) (timeout : ℤ) (item : Option Item)
    (resume : Value) : Scheduler × TaskResume :=
  if timeout > -1 ∧ resume.isTimeout = false then
    match item with
    | some it => (s.remove it, .ret resume)
    | none => (s, .ret resume)
  else (s, .ret resume)

/-! ### fd registrations and the message endpoints they hold

Modelled from the spec: `vanilla/message.py` is not under `src/`; the
`Sender` endpoint state is taken from the spec's Pipe/State contracts —
`ready` is "a recver is currently parked on the pipe", `close()` flips the
endpoint closed, and a `send(v)` that finds a parked recver delivers `v`
(recorded in `sent`) and unparks it. `Sender.stop()` (used by `Hub.stop`)
is modelled as the spec's close. -/
structure Sender where
  ready : Bool
  closed : Bool
  sent : List Value
deriving DecidableEq

/-- Spec-modelled `Sender.close` / `Sender.stop`. -/
def Sender.close (sd : Sender) : Sender := { sd with closed := true }

/-- Spec-modelled `Sender.send(True)` on a sender whose recver is parked:
the value is delivered and the recver unparked. -/
def Sender.sendTrue (sd : Sender) : Sender :=
  { sd with sent := sd.sent ++ [Value.bool true], ready := false }

/-- Modelled from the spec: the poll-mask constants of `vanilla/poll.py`
(not under `src/`) are distinct tokens POLLIN / POLLOUT / POLLERR. -/
def POLLIN : Nat := 1
def POLLOUT : Nat := 2
def POLLERR : Nat := 3

/-- Embeds `self.registered`: fd → (mask → Sender), as nested association lists. -/
abbrev Registered := List (Nat × List (Nat × Sender))

/-- Replace the value at a key of an association list. -/
def modifyAssoc {α : Type} (l : List (Nat × α)) (k : Nat) (f : α → α) :
    List (Nat × α) :=
  l.map fun p => if p.1 = k then (p.1, f p.2) else p

/-- Embeds `Hub.dispatch_events`, one event (`core.py` 393–402): an unregistered fd
is skipped; POLLERR closes every sender of the fd; any other mask sends
`True` on that mask's sender iff its recver is parked. `.error` models the
`KeyError` that `masks[mask]` raises when the mask was never registered for
the fd. -/
def dispatchOne (regs : Registered) (ev : Nat × Nat) : Except String Registered :=
  match regs.lookup ev.1 with
  | none => .ok regs
  | some masks =>
    if ev.2 = POLLERR then
      .ok (modifyAssoc regs ev.1 (fun ms => ms.map fun p => (p.1, p.2.close)))
    else
      match masks.lookup ev.2 with
      | none => .error "KeyError"
      | some sd =>
        if sd.ready then
          .ok (modifyAssoc regs ev.1 (fun ms => modifyAssoc ms ev.2 Sender.sendTrue))
        else .ok regs

/-- Embeds `Hub.dispatch_events` over the whole event list, in order. -/
def dispatch_events (regs : Registered) (events : List (Nat × Nat)) :
    Except String Registered :=
  events.foldlM dispatchOne regs

/-- Modelled from the spec: the `State` latch (`vanilla/message.py` is not
under `src/`) — a latched cell; `send(v)` sets the current value, `recv`
returns it once set. `Hub.stopped` is such a latch. -/
structure Latch where
  val : Option Value
deriving DecidableEq

def Latch.send (l : Latch) (v : Value) : Latch := { l with val := some v }

def Latch.isSet (l : Latch) : Bool := l.val.isSome

/-- The Hub state that `pump` touches. -/
structure Hub where
  ready : List Entry
  scheduled : Scheduler
  registered : Registered
deriving DecidableEq

/-- Task identity of the hub's loop greenlet (`self.loop`). -/
def loopTask : Nat := 0

/-- Callable identity of `self.dispatch_events` when spawned by `pump`. -/
def dispatchTask : Nat := 1

/-- The poll-timeout computation of `Hub.pump` (`core.py` 416–420):
`timeout = -1; if self.scheduled: timeout = min(self.scheduled.timeout(), 0)`.
Returns the (possibly pruned) scheduler and the computed timeout. -/
def pumpTimeout (s : Scheduler) (now : ℤ) : Option (Scheduler × ℤ) :=
  if s.count ≠ 0 then (s.timeout now).map fun p => (p.1, min p.2 0)
  else some (s, -1)

/-- The timer-firing loop of `Hub.pump` (`core.py` 435–437):
`while self.scheduled and self.scheduled.timeout() < 0:`
`    task, a = self.scheduled.pop(); self.run_task(task, *a)`.
Fuel-indexed; each continuing iteration strictly shrinks the physical
queue, so any fuel above the queue length is enough. Returns the scheduler,
the ready deque (fired tasks' appends land there), and the fired items in
order. -/
def fireLoopGo (env : Entry → List Entry) (now : ℤ) :
    Nat → Scheduler → List Entry → List Item →
    Option (Scheduler × List Entry × List Item)
  | 0, _, _, _ => none
  | fuel + 1, s, ready, acc =>
    if s.count = 0 then some (s, ready, acc)
    else
      match s.timeout now with
      | none => none
      | some (s1, t) =>
        if t < 0 then
          match s1.pop with
          | none => none
          | some (s2, item) =>
            fireLoopGo env now fuel s2 (ready ++ env ⟨item.action, item.args⟩)
              (acc ++ [item])
        else some (s1, ready, acc)

/-- The timer-firing loop with its canonical fuel. -/
def fireLoop (env : Entry → List Entry) (now : ℤ) (s : Scheduler)
    (ready : List Entry) : Option (Scheduler × List Entry × List Item) :=
  fireLoopGo env now (s.queue.length + 1) s ready []

/-- Everything one call of `Hub.pump` did, besides the hub state: its return
value, the ready entries it ran, the items it fired, the timeout it passed
to `poll` (if it polled), and whether the `time.sleep` branch executed. -/
structure PumpResult where
  hub : Hub
  alive : Bool
  ran : List Entry
  fired : List Item
  polled : Option ℤ
  slept : Bool
deriving DecidableEq

/-- Embeds `Hub.pump` (`core.py` 404–442). `now` is the (frozen) clock of the tick
and `pollResult` the event list the poll binding returns if consulted.
`none` models an exception escaping `pump`. When poll returned events,
`self.spawn(self.dispatch_events, events)` appends the dispatcher entry —
and, through `spawn`'s `cont()`, the loop's own handle — to the ready
deque. -/
def pump (env : Entry → List Entry) (now : ℤ) (pollResult : List (Nat × Nat))
    (h : Hub) : Option PumpResult :=
  if h.ready = [] ∧ h.scheduled.count = 0 ∧ h.registered = [] then
    some ⟨h, false, [], [], none, false⟩
  else
    let dr := drainReady env h.ready []
    match pumpTimeout h.scheduled now with
    | none => none
    | some (s1, t) =>
      let polled : Option ℤ := if h.registered = [] then none else some t
      let events : Option (List (Nat × Nat)) :=
        if h.registered = [] then none else some pollResult
      let slept : Bool := decide (h.registered = []) && decide (t > 0)
      match fireLoop env now s1 dr.2 with
      | none => none
      | some (s2, ready2, fired) =>
        let dispatched : Bool :=
          match events with
          | some (_ :: _) => true
          | _ => false
        let ready3 :=
          if dispatched then
            ready2 ++ [⟨dispatchTask, [Value.events pollResult]⟩, ⟨loopTask, []⟩]
          else ready2
        some ⟨⟨ready3, s2, h.registered⟩, true, dr.1, fired, polled, slept⟩

/-- Embeds `Hub.main` (`core.py` 444–448): pump until it returns false, then set
the stopped latch. Each iteration consumes one `(now, pollResult)` input;
the `Bool` in the result tells whether the loop broke out (shutdown) or the
input list was exhausted with the loop still live. -/
def runMain (env : Entry → List Entry) :
    List (ℤ × List (Nat × Nat)) → Hub → Latch → Option (Hub × Latch × Bool)
  | [], h, l => some (h, l, false)
  | (now, pr) :: rest, h, l =>
    match pump env now pr h with
    | none => none
    | some r =>
      if r.alive then runMain env rest r.hub l
      else some (r.hub, l.send (Value.bool true), true)

/-- Embeds `Hub.throw_to` (`core.py` 287–294): its first statement is
`raise Exception("REMOVE throw_to")`, so every call raises. -/
def throw_to (target : Nat) (exc : Value) : Except String Unit :=
  .error "REMOVE throw_to"

/-- The drain loop of `Hub.stop` (`core.py` 372–379):
`while self.scheduled: task, a = self.scheduled.pop();`
`    self.throw_to(task, Stop('stop'))`, then `self.stopped.recv()`.
Fuel-indexed like the other heap loops. `.ok true` means the loop finished
and `stop` went on to await the stopped latch. -/
def stopDrain : Nat → Scheduler → Except String Bool
  | 0, _ => .error "IndexError"
  | fuel + 1, s =>
    if s.count = 0 then .ok true
    else
      match s.pop with
      | none => .error "IndexError"
      | some (s', item) =>
        match throw_to item.action Value.stopExc with
        | .error msg => .error msg
        | .ok _ => stopDrain fuel s'

/-- Embeds `Hub.stop` (`core.py` 365–379) after its initial `self.sleep(1)` has
resumed: close every registered fd sender (`sender.stop()`), then drain the
timer heap throwing `Stop` into each task. Returns the registrations after
the close pass, and either the escaping exception or the latch await. -/
def stopAfterSleep (h : Hub) : Registered × Except String Bool :=
  let regs := h.registered.map fun p => (p.1, p.2.map fun q => (q.1, q.2.close))
  (regs, stopDrain (h.scheduled.queue.length + 1) h.scheduled)

/-! ## Concrete states used to instantiate the theorems -/

/-- A task-run environment that appends nothing to the ready deque. -/
def envNil : Entry → List Entry := fun _ => []

/-- The item `pause(timeout=5)` schedules at time 0 for task 7. -/
def itemTimeout : Item := Scheduler.mkItem 0 5 7 [Value.timeoutExc]

/-- A scheduler holding one live item (a 5 ms sleep of task 7 added at 0). -/
def schedOne : Scheduler := (Scheduler.init.add 0 5 7 []).1

/-- A scheduler whose single live item is due exactly one time unit ago
(`due − now = −1` at `now = 0`). -/
def schedNegOne : Scheduler := (Scheduler.init.add 0 (-1) 7 []).1

/-- A hub whose single timer item is due exactly at `now = 0`. -/
def hubBoundary : Hub := ⟨[], (Scheduler.init.add 0 0 7 []).1, []⟩

/-- A hub whose single timer item is 2000 ms overdue at `now = 0`. -/
def hubOverdue : Hub := ⟨[], (Scheduler.init.add 0 (-2000) 7 []).1, []⟩

/-- A hub with no registrations whose single timer item is due 1000 ms in
the future at `now = 0`. -/
def hubFuture : Hub := ⟨[], (Scheduler.init.add 0 1000 7 []).1, []⟩

/-- The completely empty hub. -/
def hubEmpty : Hub := ⟨[], Scheduler.init, []⟩

/-- One registered fd (3) with a POLLIN sender whose recver is parked. -/
def regsSample : Registered := [(3, [(POLLIN, ⟨true, false, []⟩)])]

/-- A hub with one registered fd and one live scheduled item — the premise
of the stop claim. -/
def hubStopSample : Hub := ⟨[], schedOne, regsSample⟩

/-- Modelled from the spec: the poll binding contract (`vanilla/poll.py` is
not under `src/`) says "poll(timeout: seconds, −1 = block)" — poll blocks
exactly on the sentinel −1, and returns once due for any other timeout. -/
def pollBlocks (t : ℤ) : Bool := decide (t = -1)

/-- A short well-formed scheduler call sequence: two adds, a lazy remove of
the first item (which stays physically queued), then a pop. -/
def opsSample : List SchedOp :=
  [.addOp 0 5 7 [], .addOp 0 9 8 [], .removeOp (Scheduler.mkItem 0 5 7 []),
    .popOp]

/-! ## Lemmas about the embedded definitions -/

theorem peekMin_mem {q : List Item} {m : Item} (h : peekMin q = some m) : m ∈ q := by
  induction q with
  | nil => simp [peekMin] at h
  | cons x xs ih =>
    simp only [peekMin] at h
    cases hxs : peekMin xs with
    | none => rw [hxs] at h; simp at h; simp [h]
    | some y =>
      rw [hxs] at h
      by_cases hle : x.due ≤ y.due
      · simp [hle] at h; simp [h]
      · simp [hle] at h
        exact List.mem_cons_of_mem x (ih (h ▸ hxs))

theorem peekMin_eq_none {q : List Item} : peekMin q = none ↔ q = [] := by
  cases q with
  | nil => simp [peekMin]
  | cons x xs =>
    simp only [peekMin]
    cases hxs : peekMin xs with
    | none => simp
    | some y => by_cases h : x.due ≤ y.due <;> simp [h]

theorem peekMin_le {q : List Item} :
    ∀ {m : Item}, peekMin q = some m → ∀ x ∈ q, m.due ≤ x.due := by
  induction q with
  | nil => intro m h; simp [peekMin] at h
  | cons x xs ih =>
    intro m h z hz
    simp only [peekMin] at h
    cases hxs : peekMin xs with
    | none =>
      rw [hxs] at h; simp at h
      have hnil : xs = [] := peekMin_eq_none.mp hxs
      subst hnil
      simp at hz
      subst hz; simp [← h]
    | some y =>
      rw [hxs] at h
      by_cases hle : x.due ≤ y.due
      · simp [hle] at h
        cases hz with
        | head => simp [← h]
        | tail _ hz' =>
          have := ih hxs z hz'
          rw [← h]
          exact le_trans hle this
      · simp [hle] at h
        cases hz with
        | head =>
          rw [← h]
          exact le_of_lt (lt_of_not_le hle)
        | tail _ hz' => exact h ▸ ih hxs z hz'

theorem peekMin_isSome {q : List Item} (h : q ≠ []) : ∃ m, peekMin q = some m := by
  cases hm : peekMin q with
  | none => exact absurd (peekMin_eq_none.mp hm) h
  | some m => exact ⟨m, rfl⟩

theorem mem_liveList {q removed : List Item} {i : Item} :
    i ∈ liveList q removed ↔ i ∈ q ∧ i ∉ removed := by
  simp [liveList]

/-- Erasing an item from the queue together with its removal flag does not
change the live list (the physical half of a lazy deletion). -/
theorem liveList_erase_flag {q r : List Item} {top : Item}
    (hq : q.Nodup) (htopq : top ∈ q) (htopr : top ∈ r) :
    liveList (q.erase top) (r.erase top) = liveList q r := by
  induction q with
  | nil => cases htopq
  | cons x xs ih =>
    by_cases hx : x = top
    · subst hx
      rw [List.erase_cons_head]
      have hxnot : x ∉ xs := (List.nodup_cons.mp hq).1
      have hflag : liveList (x :: xs) r = liveList xs r := by
        simp [liveList, List.filter_cons, htopr]
      rw [hflag]
      apply List.filter_congr
      intro i hi
      have hine : i ≠ x := fun h => hxnot (h ▸ hi)
      simp only [decide_eq_decide]
      rw [List.mem_erase_of_ne hine]
    · have hxs : top ∈ xs := by
        cases htopq with
        | head => exact absurd rfl hx
        | tail _ h => exact h
      have herase : (x :: xs).erase top = x :: xs.erase top :=
        List.erase_cons_tail (by simp; exact fun h => hx h)
      rw [herase]
      have hxflag : (decide (x ∉ r.erase top)) = (decide (x ∉ r)) := by
        simp only [decide_eq_decide]
        rw [List.mem_erase_of_ne hx]
      simp only [liveList, List.filter_cons, hxflag]
      have ihr := ih (List.nodup_cons.mp hq).2 hxs
      simp only [liveList] at ihr
      rw [ihr]

/-- Filtering commutes with erasing an element accepted by the filter. -/
theorem filter_erase_comm {p : Item → Bool} {l : List Item} {a : Item}
    (hpa : p a = true) :
    (l.erase a).filter p = (l.filter p).erase a := by
  induction l with
  | nil => simp
  | cons x xs ih =>
    by_cases hx : x = a
    · subst hx
      rw [List.erase_cons_head, List.filter_cons_of_pos hpa, List.erase_cons_head]
    · have herase : (x :: xs).erase a = x :: xs.erase a :=
        List.erase_cons_tail (by simp; exact fun h => hx h)
      rw [herase]
      by_cases hpx : p x = true
      · rw [List.filter_cons_of_pos hpx, List.filter_cons_of_pos hpx,
          List.erase_cons_tail (by simp; exact fun h => hx h), ih]
      · rw [List.filter_cons_of_neg (by simp_all),
          List.filter_cons_of_neg (by simp_all), ih]

/-- Specification of `pruneGo`: with enough fuel, starting from a
well-formed pair with at least one live item, pruning succeeds, preserves
the live list exactly, and leaves a live item at the top. -/
theorem pruneGo_spec :
    ∀ (fuel : Nat) (q r : List Item),
    q.Nodup → r.Nodup → (∀ i ∈ r, i ∈ q) → r.length < fuel →
    liveList q r ≠ [] →
    ∃ q' r', Scheduler.pruneGo fuel q r = some (q', r') ∧
      q'.Nodup ∧ r'.Nodup ∧ (∀ i ∈ r', i ∈ q') ∧
      liveList q' r' = liveList q r ∧
      q'.length ≤ q.length ∧
      ∃ top, peekMin q' = some top ∧ top ∉ r' := by
  intro fuel
  induction fuel with
  | zero => intro q r _ _ _ hfuel _; omega
  | succ fuel ih =>
    intro q r hq hr hsub hfuel hlive
    have hqne : q ≠ [] := by
      intro h; subst h; simp [liveList] at hlive
    obtain ⟨top, htop⟩ := peekMin_isSome hqne
    by_cases htr : top ∈ r
    · have htq : top ∈ q := peekMin_mem htop
      have hq' : (q.erase top).Nodup := hq.erase top
      have hr' : (r.erase top).Nodup := hr.erase top
      have hsub' : ∀ i ∈ r.erase top, i ∈ q.erase top := by
        intro i hi
        have hir : i ∈ r := List.mem_of_mem_erase hi
        have hine : i ≠ top := by
          intro h; subst h
          exact (hr.mem_erase_iff.mp hi).1 rfl
        exact (List.mem_erase_of_ne hine).mpr (hsub i hir)
      have hfuel' : (r.erase top).length < fuel := by
        rw [List.length_erase_of_mem htr]
        have : 1 ≤ r.length := List.length_pos.mpr (fun h => by subst h; cases htr)
        omega
      have hlive' : liveList (q.erase top) (r.erase top) ≠ [] := by
        rw [liveList_erase_flag hq htq htr]; exact hlive
      obtain ⟨q', r', heq, h1, h2, h3, h4, h5, h6⟩ :=
        ih (q.erase top) (r.erase top) hq' hr' hsub' hfuel' hlive'
      refine ⟨q', r', ?_, h1, h2, h3, ?_, ?_, h6⟩
      · simp only [Scheduler.pruneGo, htop, htr, if_pos]
        exact heq
      · rw [h4, liveList_erase_flag hq htq htr]
      · calc q'.length ≤ (q.erase top).length := h5
          _ ≤ q.length := List.length_erase_le top q
    · refine ⟨q, r, ?_, hq, hr, hsub, rfl, le_refl _, top, htop, htr⟩
      simp only [Scheduler.pruneGo, htop, htr, if_neg, not_false_iff]

namespace Scheduler

/-- Specification of `prune` on well-formed states with a live item: it
succeeds, preserves the live list and the count, and leaves a live top. -/
theorem prune_spec {s : Scheduler} (h : s.WF) (hlive : s.live ≠ 0) :
    ∃ s1, s.prune = some s1 ∧ s1.WF ∧
      liveList s1.queue s1.removed = liveList s.queue s.removed ∧
      s1.count = s.count ∧ s1.queue.length ≤ s.queue.length ∧
      ∃ top, peekMin s1.queue = some top ∧ top ∉ s1.removed := by
  obtain ⟨hq, hr, hsub, hcount⟩ := h
  have hrlen : s.removed.length ≤ s.queue.length :=
    (List.subperm_of_subset hr hsub).length_le
  have hlive' : liveList s.queue s.removed ≠ [] := by
    intro hnil
    apply hlive
    simp [live, hnil]
  obtain ⟨q', r', heq, h1, h2, h3, h4, h5, h6⟩ :=
    pruneGo_spec (s.queue.length + 1) s.queue s.removed hq hr hsub
      (by omega) hlive'
  refine ⟨{ s with queue := q', removed := r' }, ?_, ?_, h4, rfl, h5, h6⟩
  · simp [prune, heq]
  · exact ⟨h1, h2, h3, by simp only [live] at hcount ⊢; rw [h4]; exact hcount⟩

/-- Specification of `timeout` on well-formed states with a live item: it
returns `top.due − now` for the minimal live item `top`, having pruned. -/
theorem timeout_spec {s : Scheduler} (now : ℤ) (h : s.WF) (hlive : s.live ≠ 0) :
    ∃ s1 top, s.timeout now = some (s1, top.due - now) ∧ s1.WF ∧
      liveList s1.queue s1.removed = liveList s.queue s.removed ∧
      s1.count = s.count ∧ s1.queue.length ≤ s.queue.length ∧
      top ∈ liveList s.queue s.removed ∧
      (∀ x ∈ liveList s.queue s.removed, top.due ≤ x.due) ∧
      peekMin s1.queue = some top ∧ top ∉ s1.removed := by
  obtain ⟨s1, heq, hwf, hll, hcnt, hlen, top, htop, htr⟩ := prune_spec h hlive
  have htopmem : top ∈ liveList s.queue s.removed := by
    rw [← hll, mem_liveList]
    exact ⟨peekMin_mem htop, htr⟩
  refine ⟨s1, top, ?_, hwf, hll, hcnt, hlen, htopmem, ?_, htop, htr⟩
  · simp [timeout, heq, htop]
  · intro x hx
    rw [← hll] at hx
    exact peekMin_le htop x (List.mem_of_mem_filter hx)

/-- Specification of `pop` on well-formed states with a live item: it pops
the minimal live item, decrements the count, and strictly shrinks the
physical queue. -/
theorem pop_spec {s : Scheduler} (h : s.WF) (hlive : s.live ≠ 0) :
    ∃ s2 top, s.pop = some (s2, top) ∧ s2.WF ∧
      top ∈ liveList s.queue s.removed ∧
      (∀ x ∈ liveList s.queue s.removed, top.due ≤ x.due) ∧
      liveList s2.queue s2.removed = (liveList s.queue s.removed).erase top ∧
      s2.count = s.count - 1 ∧ s2.queue.length < s.queue.length ∧
      top ∉ s.removed := by
  obtain ⟨s1, heq, hwf1, hll, hcnt, hlen, top, htop, htr⟩ := prune_spec h hlive
  obtain ⟨hq1, hr1, hsub1, hcount1⟩ := hwf1
  have htopq1 : top ∈ s1.queue := peekMin_mem htop
  have htopmem : top ∈ liveList s.queue s.removed := by
    rw [← hll, mem_liveList]; exact ⟨htopq1, htr⟩
  have htoplive1 : top ∈ liveList s1.queue s1.removed := by
    rw [hll]; exact htopmem
  refine ⟨{ s1 with queue := s1.queue.erase top, count := s1.count - 1 }, top,
    ?_, ?_, htopmem, ?_, ?_, by rw [hcnt], ?_, ?_⟩
  · simp [pop, heq, htop]
  · refine ⟨hq1.erase top, hr1, ?_, ?_⟩
    · intro i hi
      have hine : i ≠ top := fun hcontra => htr (hcontra ▸ hi)
      exact (List.mem_erase_of_ne hine).mpr (hsub1 i hi)
    · simp only [live, liveList] at hcount1 ⊢
      have hcomm := filter_erase_comm (l := s1.queue) (a := top)
        (p := fun i => decide (i ∉ s1.removed)) (by simp [htr])
      simp only [hcomm]
      rw [List.length_erase_of_mem]
      · simp only [liveList] at htoplive1
        have hpos : 0 < (List.filter (fun i => decide (i ∉ s1.removed)) s1.queue).length :=
          List.length_pos.mpr (fun hnil => by rw [hnil] at htoplive1; cases htoplive1)
        omega
      · simpa [liveList] using htoplive1
  · intro x hx
    rw [← hll] at hx
    exact peekMin_le htop x (List.mem_of_mem_filter hx)
  · simp only [liveList]
    have hcomm := filter_erase_comm (l := s1.queue) (a := top)
      (p := fun i => decide (i ∉ s1.removed)) (by simp [htr])
    rw [hcomm]
    simp only [liveList] at hll
    rw [hll]
  · show (s1.queue.erase top).length < s.queue.length
    have hlt : (s1.queue.erase top).length < s1.queue.length := by
      rw [List.length_erase_of_mem htopq1]
      have : 1 ≤ s1.queue.length :=
        List.length_pos.mpr (fun h => by rw [h] at htopq1; cases htopq1)
      omega
    omega
  · intro hcontra
    have : top ∈ s.queue := h.2.2.1 top hcontra
    have : top ∈ liveList s.queue s.removed := htopmem
    rw [mem_liveList] at this
    exact this.2 hcontra

end Scheduler

/-- Flagging a (not yet flagged) item removes exactly it from the live list. -/
theorem liveList_insert_flag {q r : List Item} {item : Item}
    (hq : q.Nodup) (hr : item ∉ r) :
    liveList q (item :: r) = (liveList q r).erase item := by
  induction q with
  | nil => simp [liveList]
  | cons x xs ih =>
    have hxs : xs.Nodup := (List.nodup_cons.mp hq).2
    by_cases hx : x = item
    · subst hx
      have hxnot : x ∉ xs := (List.nodup_cons.mp hq).1
      have hleft : liveList (x :: xs) (x :: r) = liveList xs (x :: r) := by
        simp [liveList, List.filter_cons]
      have hcongr : liveList xs (x :: r) = liveList xs r := by
        apply List.filter_congr
        intro i hi
        have hine : i ≠ x := fun h => hxnot (h ▸ hi)
        simp [hine]
      have hright : liveList (x :: xs) r = x :: liveList xs r := by
        simp [liveList, List.filter_cons, hr]
      rw [hleft, hcongr, hright, List.erase_cons_head]
    · by_cases hxr : x ∈ r
      · have hleft : liveList (x :: xs) (item :: r) = liveList xs (item :: r) := by
          simp [liveList, List.filter_cons, hxr]
        have hright : liveList (x :: xs) r = liveList xs r := by
          simp [liveList, List.filter_cons, hxr]
        rw [hleft, hright, ih hxs]
      · have hleft : liveList (x :: xs) (item :: r) = x :: liveList xs (item :: r) := by
          simp [liveList, List.filter_cons, hxr, hx]
        have hright : liveList (x :: xs) r = x :: liveList xs r := by
          simp [liveList, List.filter_cons, hxr]
        rw [hleft, hright, ih hxs,
          List.erase_cons_tail (by simp; exact fun h => hx h)]

namespace Scheduler

/-- Calling `add` with a fresh item preserves well-formedness, increments the count,
and appends the item to the live list. -/
theorem add_spec {s : Scheduler} (h : s.WF) {now delay : ℤ} {action : Nat}
    {args : List Value} (hfresh : mkItem now delay action args ∉ s.queue) :
    (s.add now delay action args).1.WF ∧
    (s.add now delay action args).1.count = s.count + 1 ∧
    liveList (s.add now delay action args).1.queue
        (s.add now delay action args).1.removed =
      liveList s.queue s.removed ++ [mkItem now delay action args] := by
  obtain ⟨hq, hr, hsub, hcount⟩ := h
  have hnr : mkItem now delay action args ∉ s.removed :=
    fun hmem => hfresh (hsub _ hmem)
  have hll : liveList (s.queue ++ [mkItem now delay action args]) s.removed =
      liveList s.queue s.removed ++ [mkItem now delay action args] := by
    simp [liveList, List.filter_append, hnr]
  refine ⟨⟨?_, hr, ?_, ?_⟩, rfl, hll⟩
  · simp [add, List.nodup_append, hq, hfresh]
  · intro i hi
    simp [add]
    exact Or.inl (hsub i hi)
  · show s.count + 1 = _
    simp only [add, live, hll]
    rw [List.length_append]
    simp only [live] at hcount
    simp [hcount]

/-- Calling `remove` on a live item preserves well-formedness, decrements the count,
and erases exactly that item from the live list. -/
theorem remove_spec {s : Scheduler} (h : s.WF) {item : Item}
    (hmem : item ∈ s.queue) (hflag : item ∉ s.removed) :
    (s.remove item).WF ∧ (s.remove item).count = s.count - 1 ∧
    liveList (s.remove item).queue (s.remove item).removed =
      (liveList s.queue s.removed).erase item := by
  obtain ⟨hq, hr, hsub, hcount⟩ := h
  have hins : s.removed.insert item = item :: s.removed := List.insert_of_not_mem hflag
  have hll : liveList (s.remove item).queue (s.remove item).removed =
      (liveList s.queue s.removed).erase item := by
    simp only [remove, hins]
    exact liveList_insert_flag hq hflag
  have hlivemem : item ∈ liveList s.queue s.removed := mem_liveList.mpr ⟨hmem, hflag⟩
  refine ⟨⟨hq, ?_, ?_, ?_⟩, rfl, hll⟩
  · simp only [remove, hins]
    exact List.nodup_cons.mpr ⟨hflag, hr⟩
  · intro i hi
    simp only [remove, hins] at hi
    cases hi with
    | head => exact hmem
    | tail _ hi' => exact hsub i hi'
  · show s.count - 1 = _
    simp only [live, hll]
    rw [List.length_erase_of_mem hlivemem]
    simp only [live] at hcount
    have hpos : 0 < (liveList s.queue s.removed).length :=
      List.length_pos.mpr (fun hnil => by rw [hnil] at hlivemem; cases hlivemem)
    omega

end Scheduler

/-! ## Specification lemmas about `pump`'s pieces -/

/-- The computed poll timeout is never positive: `-1` without timers,
`min(·, 0) ≤ 0` with them. No well-formedness needed. -/
theorem pumpTimeout_nonpos {s s1 : Scheduler} {now t : ℤ}
    (h : pumpTimeout s now = some (s1, t)) : t ≤ 0 := by
  unfold pumpTimeout at h
  by_cases hc : s.count = 0
  · simp [hc] at h
    linarith [h.2]
  · simp [hc] at h
    obtain ⟨s', t', _, _, ht⟩ := h
    rw [← ht]
    exact min_le_right _ _

/-- Full description of the poll-timeout computation on well-formed states:
`-1` when the live count is zero, else `min(due_top − now, 0)` for the
minimal live item, the scheduler merely pruned. -/
theorem pumpTimeout_spec {s : Scheduler} (now : ℤ) (hwf : s.WF) :
    (s.count = 0 → pumpTimeout s now = some (s, -1)) ∧
    (s.count ≠ 0 → ∃ s1 top,
      pumpTimeout s now = some (s1, min (top.due - now) 0) ∧
      top ∈ liveList s.queue s.removed ∧
      (∀ x ∈ liveList s.queue s.removed, top.due ≤ x.due) ∧
      s1.WF ∧ liveList s1.queue s1.removed = liveList s.queue s.removed ∧
      s1.count = s.count) := by
  constructor
  · intro hc; simp [pumpTimeout, hc]
  · intro hc
    have hlive : s.live ≠ 0 := by
      intro h0
      apply hc
      rw [hwf.2.2.2, h0]; rfl
    obtain ⟨s1, top, heq, hwf1, hll, hcnt, _, hmem, hmin, _, _⟩ :=
      Scheduler.timeout_spec now hwf hlive
    exact ⟨s1, top, by simp [pumpTimeout, hc, heq], hmem, hmin, hwf1, hll, hcnt⟩

/-- Specification of the timer-firing loop: with enough fuel, on a
well-formed scheduler it fires exactly the live items that are strictly
overdue (`due < now`), in nondecreasing due order (heap order), appending
each fired task's effect to the ready deque in that order; every item left
live is not yet due. -/
theorem fireLoopGo_spec (env : Entry → List Entry) (now : ℤ) :
    ∀ (fuel : Nat) (s : Scheduler) (ready : List Entry) (acc : List Item),
    s.WF → s.queue.length < fuel →
    ∃ s' fired,
      fireLoopGo env now fuel s ready acc =
        some (s', ready ++ fired.bind (fun i => env ⟨i.action, i.args⟩),
          acc ++ fired) ∧
      s'.WF ∧
      (liveList s.queue s.removed).Perm
        (fired ++ liveList s'.queue s'.removed) ∧
      (∀ i ∈ fired, i.due < now) ∧
      (∀ i ∈ liveList s'.queue s'.removed, now ≤ i.due) ∧
      List.Sorted (fun a b : Item => a.due ≤ b.due) fired := by
  intro fuel
  induction fuel with
  | zero => intro s ready acc _ hfuel; omega
  | succ fuel ih =>
    intro s ready acc hwf hfuel
    by_cases hc : s.count = 0
    · have hlive0 : s.live = 0 := by
        have := hwf.2.2.2
        omega
      have hnil : liveList s.queue s.removed = [] :=
        List.length_eq_zero.mp hlive0
      refine ⟨s, [], ?_, hwf, ?_, by simp, ?_, by simp⟩
      · simp [fireLoopGo, hc]
      · simp [hnil]
      · intro i hi
        rw [hnil] at hi
        cases hi
    · have hlive : s.live ≠ 0 := by
        intro h0
        apply hc
        rw [hwf.2.2.2, h0]; rfl
      obtain ⟨s1, top, heq, hwf1, hll1, hcnt1, hlen1, htopmem, htopmin, _, _⟩ :=
        Scheduler.timeout_spec now hwf hlive
      by_cases ht : top.due - now < 0
      · have hlive1 : s1.live ≠ 0 := by
          intro h0
          apply hlive
          simp only [Scheduler.live] at h0 ⊢
          rw [← hll1]; exact h0
        obtain ⟨s2, m, hpop, hwf2, hmmem1, hmmin1, hll2, hcnt2, hlen2, _⟩ :=
          Scheduler.pop_spec hwf1 hlive1
        have hmmem : m ∈ liveList s.queue s.removed := by rw [← hll1]; exact hmmem1
        have hmdue : m.due < now := by
          have h1 : m.due ≤ top.due := hmmin1 top (by rw [hll1]; exact htopmem)
          linarith
        have hfuel2 : s2.queue.length < fuel := by omega
        obtain ⟨s', fired', heq', hwf', hperm', hdue', hleft', hsorted'⟩ :=
          ih s2 (ready ++ env ⟨m.action, m.args⟩) (acc ++ [m]) hwf2 hfuel2
        refine ⟨s', m :: fired', ?_, hwf', ?_, ?_, hleft', ?_⟩
        · simp only [fireLoopGo, hc, if_neg (by exact hc), heq, ht, if_pos, hpop]
          rw [heq']
          simp
        · have hstep : (liveList s.queue s.removed).Perm
              (m :: liveList s2.queue s2.removed) := by
            rw [← hll1, hll2]
            exact List.perm_cons_erase hmmem1
          exact hstep.trans (hperm'.cons m)
        · intro i hi
          cases hi with
          | head => exact hmdue
          | tail _ hi' => exact hdue' i hi'
        · rw [List.sorted_cons]
          refine ⟨?_, hsorted'⟩
          intro b hb
          have hbmem : b ∈ liveList s2.queue s2.removed := by
            have : b ∈ fired' ++ liveList s'.queue s'.removed :=
              List.mem_append_left _ hb
            exact hperm'.symm.subset this
          rw [hll2] at hbmem
          exact hmmin1 b (List.mem_of_mem_erase hbmem)
      · refine ⟨s1, [], ?_, hwf1, ?_, by simp, ?_, by simp⟩
        · simp [fireLoopGo, hc, heq, ht]
        · simp [hll1]
        · intro i hi
          rw [hll1] at hi
          have h1 : top.due ≤ i.due := htopmin i hi
          have h2 : now ≤ top.due := by linarith
          linarith

/-- The wrapper `fireLoop` (canonical fuel) satisfies the firing-loop specification. -/
theorem fireLoop_spec (env : Entry → List Entry) (now : ℤ) {s : Scheduler}
    (ready : List Entry) (hwf : s.WF) :
    ∃ s' fired,
      fireLoop env now s ready =
        some (s', ready ++ fired.bind (fun i => env ⟨i.action, i.args⟩), fired) ∧
      s'.WF ∧
      (liveList s.queue s.removed).Perm
        (fired ++ liveList s'.queue s'.removed) ∧
      (∀ i ∈ fired, i.due < now) ∧
      (∀ i ∈ liveList s'.queue s'.removed, now ≤ i.due) ∧
      List.Sorted (fun a b : Item => a.due ≤ b.due) fired := by
  obtain ⟨s', fired, heq, h⟩ :=
    fireLoopGo_spec env now (s.queue.length + 1) s ready [] hwf (by omega)
  exact ⟨s', fired, by simpa using heq, h⟩

/-- The snapshot drain runs exactly the snapshotted entries, in FIFO order,
and the fresh deque afterwards holds exactly the entries appended by those
runs, in order. -/
theorem drainReady_eq (env : Entry → List Entry) :
    ∀ (snap acc : List Entry),
    drainReady env snap acc = (snap, acc ++ snap.bind env) := by
  intro snap
  induction snap with
  | nil => intro acc; simp [drainReady]
  | cons e rest ih =>
    intro acc
    simp [drainReady, ih, List.cons_bind, List.append_assoc]

/-- On a well-formed scheduler the timeout computation always succeeds,
yields a non-positive timeout, and only prunes. -/
theorem pumpTimeout_some {s : Scheduler} (now : ℤ) (hwf : s.WF) :
    ∃ s1 t, pumpTimeout s now = some (s1, t) ∧ t ≤ 0 ∧ s1.WF ∧
      liveList s1.queue s1.removed = liveList s.queue s.removed ∧
      s1.count = s.count := by
  by_cases hc : s.count = 0
  · exact ⟨s, -1, (pumpTimeout_spec now hwf).1 hc, by norm_num, hwf, rfl, rfl⟩
  · obtain ⟨s1, top, heq, _, _, hwf1, hll, hcnt⟩ :=
      (pumpTimeout_spec now hwf).2 hc
    exact ⟨s1, min (top.due - now) 0, heq, min_le_right _ _, hwf1, hll, hcnt⟩

/-- Assembled behaviour of one non-shutdown `pump` tick on a well-formed
scheduler: it returns, reports the hub live, never executes the sleep
branch, runs exactly the snapshotted ready entries, and fires exactly the
live items strictly overdue, in heap order. -/
theorem pump_some (env : Entry → List Entry) (now : ℤ)
    (pollResult : List (Nat × Nat)) (h : Hub) (hwf : h.scheduled.WF)
    (hne : ¬(h.ready = [] ∧ h.scheduled.count = 0 ∧ h.registered = [])) :
    ∃ r t, pump env now pollResult h = some r ∧
      r.alive = true ∧ r.slept = false ∧ r.ran = h.ready ∧
      r.hub.registered = h.registered ∧
      r.polled = (if h.registered = [] then none else some t) ∧ t ≤ 0 ∧
      r.hub.scheduled.WF ∧
      (liveList h.scheduled.queue h.scheduled.removed).Perm
        (r.fired ++
          liveList r.hub.scheduled.queue r.hub.scheduled.removed) ∧
      (∀ i ∈ r.fired, i.due < now) ∧
      (∀ i ∈ liveList r.hub.scheduled.queue r.hub.scheduled.removed,
        now ≤ i.due) ∧
      List.Sorted (fun a b : Item => a.due ≤ b.due) r.fired := by
  obtain ⟨s1, t, hpt, ht, hwf1, hll1, _⟩ := pumpTimeout_some now hwf
  obtain ⟨s2, fired, hfl, hwf2, hperm, hdue, hleft, hsort⟩ :=
    fireLoop_spec env now (drainReady env h.ready []).2 hwf1
  have hslept : (decide (h.registered = []) && decide (t > 0)) = false := by
    have : ¬(t > 0) := not_lt.mpr ht
    simp [this]
  refine ⟨⟨⟨?ready3, s2, h.registered⟩, true, (drainReady env h.ready []).1,
    fired, if h.registered = [] then none else some t,
    decide (h.registered = []) && decide (t > 0)⟩, t, ?_, rfl, hslept, ?_,
    rfl, rfl, ht, hwf2, ?_, hdue, hleft, hsort⟩
  case ready3 =>
    exact if (match (if h.registered = [] then
        (none : Option (List (Nat × Nat))) else some pollResult) with
      | some (_ :: _) => true
      | _ => false) then
        (drainReady env h.ready []).2 ++
          fired.bind (fun i => env ⟨i.action, i.args⟩) ++
          [⟨dispatchTask, [Value.events pollResult]⟩, ⟨loopTask, []⟩]
      else (drainReady env h.ready []).2 ++
        fired.bind (fun i => env ⟨i.action, i.args⟩)
  · unfold pump
    rw [if_neg hne, hpt]
    simp only [hfl]
  · simp [drainReady_eq]
  · rw [← hll1]
    exact hperm

/-- The embedded `pump` reports shutdown (returns `False`) exactly when the Ready Deque,
the live timer count, and the fd registrations are all empty at entry. -/
theorem pump_alive_iff (env : Entry → List Entry) (now : ℤ)
    (pollResult : List (Nat × Nat)) (h : Hub) :
    (pump env now pollResult h).map PumpResult.alive = some false ↔
      (h.ready = [] ∧ h.scheduled.count = 0 ∧ h.registered = []) := by
  constructor
  · intro hmap
    by_contra hne
    unfold pump at hmap
    rw [if_neg hne] at hmap
    cases hpt : pumpTimeout h.scheduled now with
    | none => rw [hpt] at hmap; simp at hmap
    | some p =>
      obtain ⟨s1, t⟩ := p
      rw [hpt] at hmap
      cases hfl : fireLoop env now s1 (drainReady env h.ready []).2 with
      | none => simp [hfl] at hmap
      | some q => simp [hfl] at hmap
  · intro he
    unfold pump
    rw [if_pos he]
    rfl

/-- When `main`'s loop breaks out (pump returned false), the stopped latch
has been sent `True`. -/
theorem runMain_finished (env : Entry → List Entry) :
    ∀ (inputs : List (ℤ × List (Nat × Nat))) (h : Hub) (l : Latch)
      (h2 : Hub) (l2 : Latch),
    runMain env inputs h l = some (h2, l2, true) →
    l2.val = some (Value.bool true) := by
  intro inputs
  induction inputs with
  | nil => intro h l h2 l2 hrun; simp [runMain] at hrun
  | cons p rest ih =>
    intro h l h2 l2 hrun
    obtain ⟨now, pr⟩ := p
    simp only [runMain] at hrun
    cases hp : pump env now pr h with
    | none => rw [hp] at hrun; cases hrun
    | some r =>
      rw [hp] at hrun
      dsimp only at hrun
      by_cases ha : r.alive
      · rw [if_pos ha] at hrun
        exact ih r.hub l h2 l2 hrun
      · rw [if_neg ha] at hrun
        simp only [Option.some.injEq, Prod.mk.injEq] at hrun
        rw [← hrun.2.1]
        rfl

/-! ## Claim theorems -/

/-- Claim C1 (amended): for every `Hub.pause` with timeout `t > -1`, the
scheduled timeout item targets the current task and carries the Timeout
marker as payload (so when `pump` fires it, the marker is the value the
task is resumed with); on resume, `pause` RETURNS the resume value
unconditionally — when the timeout fired, the returned value is the Timeout
marker itself and nothing is raised; when the resume value is ordinary, that
value is returned and the timeout item is cancelled. -/
theorem pause_returns_resume_value (s : Scheduler) (now t : ℤ) (cur : Nat)
    (ht : t > -1) :
    (pauseSchedule s now t cur).2 =
      some (Scheduler.mkItem now t cur [Value.timeoutExc]) ∧
    (Scheduler.mkItem now t cur [Value.timeoutExc]).action = cur ∧
    (∀ s2 v, (pauseReturn s2 t
        (some (Scheduler.mkItem now t cur [Value.timeoutExc])) v).2 =
      TaskResume.ret v) ∧
    (∀ s2, (pauseReturn s2 t
        (some (Scheduler.mkItem now t cur [Value.timeoutExc]))
        Value.timeoutExc).1 = s2) ∧
    (∀ s2 v, v.isTimeout = false →
      (pauseReturn s2 t
          (some (Scheduler.mkItem now t cur [Value.timeoutExc])) v).1 =
        s2.remove (Scheduler.mkItem now t cur [Value.timeoutExc])) := by
  refine ⟨?_, rfl, ?_, ?_, ?_⟩
  · simp [pauseSchedule, ht, Scheduler.add]
  · intro s2 v
    by_cases hv : v.isTimeout = false <;> simp [pauseReturn, ht, hv]
  · intro s2
    simp [pauseReturn, Value.isTimeout]
  · intro s2 v hv
    simp [pauseReturn, ht, hv]

/-- Claim C1 (counterexample): at a concrete pause with timeout 5 whose
scheduled timeout item fired — the resume value is the Timeout marker —
`pause` RETURNS the marker (`TaskResume.ret`); nothing is raised,
contradicting the claim that the marker causes a raise inside the task. -/
theorem pause_no_raise_on_timeout :
    Value.isTimeout Value.timeoutExc = true ∧
    (pauseReturn Scheduler.init 5 (some itemTimeout) Value.timeoutExc).2 =
      TaskResume.ret Value.timeoutExc ∧
    TaskResume.isRaised
      (pauseReturn Scheduler.init 5 (some itemTimeout) Value.timeoutExc).2 =
      false := by
  decide

/-- Witness for the amended C1 theorem at a concrete input. -/
theorem pause_returns_resume_value_witness :
    (pauseSchedule Scheduler.init 0 5 7).2 = some itemTimeout ∧
    (pauseReturn Scheduler.init 5 (some itemTimeout) Value.unit).2 =
      TaskResume.ret Value.unit :=
  ⟨(pause_returns_resume_value Scheduler.init 0 5 7 (by norm_num)).1,
   (pause_returns_resume_value Scheduler.init 0 5 7 (by norm_num)).2.2.1
     Scheduler.init Value.unit⟩

/-- Claim C8: a pause with timeout `t > -1` that is resumed with an
ordinary (non-Timeout) value cancels its scheduled timeout item: the item
is flagged removed, the live count is decremented, and the timer-firing
loop can never fire it afterwards. -/
theorem pause_early_resume_cancels (s : Scheduler) (t : ℤ) (it : Item)
    (v : Value) (ht : t > -1) (hv : v.isTimeout = false) (hwf : s.WF)
    (hq : it ∈ s.queue) (hr : it ∉ s.removed) :
    (pauseReturn s t (some it) v).1 = s.remove it ∧
    it ∈ (s.remove it).removed ∧
    (s.remove it).count = s.count - 1 ∧
    ∀ env now ready out,
      fireLoop env now (s.remove it) ready = some out → it ∉ out.2.2 := by
  have hpr : (pauseReturn s t (some it) v).1 = s.remove it := by
    simp [pauseReturn, ht, hv]
  obtain ⟨hwf', hcnt, hll⟩ := Scheduler.remove_spec hwf hq hr
  refine ⟨hpr, ?_, rfl, ?_⟩
  · exact List.mem_insert_self it s.removed
  · intro env now ready out hfl
    obtain ⟨s', fired, heq, _, hperm, _, _, _⟩ := fireLoop_spec env now ready hwf'
    rw [heq] at hfl
    injection hfl with hfl'
    rw [← hfl']
    dsimp only
    intro hmem
    have hlivemem : it ∈ liveList (s.remove it).queue (s.remove it).removed :=
      hperm.symm.subset (List.mem_append_left _ hmem)
    rw [mem_liveList] at hlivemem
    exact hlivemem.2 (List.mem_insert_self it s.removed)

/-- Witness for the C8 theorem at a concrete input. -/
theorem pause_early_resume_cancels_witness :
    (pauseReturn schedOne 5 (some (Scheduler.mkItem 0 5 7 [])) Value.unit).1 =
      schedOne.remove (Scheduler.mkItem 0 5 7 []) :=
  (pause_early_resume_cancels schedOne 5 (Scheduler.mkItem 0 5 7 [])
    Value.unit (by norm_num) (by decide) (by decide) (by decide)
    (by decide)).1

/-- Claim C4 (amended): the poll timeout is `-1` when the live timer count
is zero and `min(due_top − now, 0)` otherwise (for the minimal live item);
it is therefore never positive — and, under the spec's poll contract where
exactly the sentinel −1 blocks, poll blocks only in the coincidence
`due_top − now = −1`. -/
theorem pump_timeout_formula (s : Scheduler) (now : ℤ) (hwf : s.WF) :
    (s.count = 0 → pumpTimeout s now = some (s, -1)) ∧
    (s.count ≠ 0 → ∃ s1 top,
      pumpTimeout s now = some (s1, min (top.due - now) 0) ∧
      top ∈ liveList s.queue s.removed ∧
      (∀ x ∈ liveList s.queue s.removed, top.due ≤ x.due) ∧
      min (top.due - now) 0 ≤ 0 ∧
      (pollBlocks (min (top.due - now) 0) = true ↔ top.due - now = -1)) := by
  refine ⟨(pumpTimeout_spec now hwf).1, ?_⟩
  intro hc
  obtain ⟨s1, top, heq, hmem, hmin, _, _, _⟩ := (pumpTimeout_spec now hwf).2 hc
  refine ⟨s1, top, heq, hmem, hmin, min_le_right _ _, ?_⟩
  unfold pollBlocks
  rw [decide_eq_true_iff]
  constructor
  · intro hmin1
    by_cases hx : top.due - now ≤ 0
    · rw [min_eq_left hx] at hmin1; exact hmin1
    · rw [min_eq_right (le_of_lt (lt_of_not_le hx))] at hmin1
      norm_num at hmin1
  · intro hx
    rw [hx, min_eq_left (by norm_num)]

/-- Claim C4 (counterexample): with one live item exactly one second
overdue, the computed timeout `min(due − now, 0) = −1` coincides with the
poll contract's blocking sentinel, so "poll never blocks" fails there. -/
theorem pump_timeout_blocking_sentinel :
    schedNegOne.count ≠ 0 ∧
    pumpTimeout schedNegOne 0 = some (schedNegOne, -1) ∧
    pollBlocks (-1) = true := by
  decide

/-- Witness for the amended C4 theorem at a concrete input. -/
theorem pump_timeout_formula_witness :
    pumpTimeout Scheduler.init 0 = some (Scheduler.init, -1) :=
  (pump_timeout_formula Scheduler.init 0 (by decide)).1 rfl

/-- Claim C7: for every well-formed sequence of `add`, `remove` and `pop`
calls the logical count equals the number of live items, no matter how many
cancelled items physically remain queued awaiting lazy pruning. -/
theorem scheduler_count_is_live (ops : List SchedOp) :
    ∀ (s : Scheduler), s.WF → validOps s ops = true →
    ∃ s', applyOps s ops = some s' ∧ s'.WF ∧ s'.count = (s'.live : Int) := by
  induction ops with
  | nil =>
    intro s hwf _
    exact ⟨s, rfl, hwf, hwf.2.2.2⟩
  | cons op rest ih =>
    intro s hwf hvalid
    cases op with
    | addOp now delay action args =>
      simp only [validOps, Bool.and_eq_true, decide_eq_true_eq] at hvalid
      obtain ⟨hfresh, hrest⟩ := hvalid
      obtain ⟨hwf', _, _⟩ := Scheduler.add_spec hwf hfresh
      obtain ⟨s', heq, hwfs, hcnt⟩ := ih _ hwf' hrest
      exact ⟨s', by simp [applyOps, applyOp, heq], hwfs, hcnt⟩
    | removeOp item =>
      simp only [validOps, Bool.and_eq_true, decide_eq_true_eq] at hvalid
      obtain ⟨⟨hmem, hflag⟩, hrest⟩ := hvalid
      obtain ⟨hwf', _, _⟩ := Scheduler.remove_spec hwf hmem hflag
      obtain ⟨s', heq, hwfs, hcnt⟩ := ih _ hwf' hrest
      exact ⟨s', by simp [applyOps, applyOp, heq], hwfs, hcnt⟩
    | popOp =>
      simp only [validOps, Bool.and_eq_true, decide_eq_true_eq] at hvalid
      obtain ⟨hlive, hrest⟩ := hvalid
      obtain ⟨s2, m, hpop, hwf2, _⟩ := Scheduler.pop_spec hwf hlive
      rw [hpop] at hrest
      obtain ⟨s', heq, hwfs, hcnt⟩ := ih s2 hwf2 hrest
      refine ⟨s', ?_, hwfs, hcnt⟩
      simp [applyOps, applyOp, hpop, heq]

/-- Witness for the C7 theorem at a concrete call sequence. -/
theorem scheduler_count_is_live_witness :
    ∃ s', applyOps Scheduler.init opsSample = some s' ∧ s'.WF ∧
      s'.count = (s'.live : Int) :=
  scheduler_count_is_live opsSample Scheduler.init (by decide) (by decide)

/-- Claim C3 (amended): in step 5 of a pump iteration on a well-formed,
non-shutdown hub, the items fired are exactly the live Timer Heap items
whose due time is STRICTLY less than the current time (the loop condition
is `timeout() < 0`), they fire in heap (nondecreasing due) order before
`pump` returns, and every item left live — including one due exactly now —
is not fired. -/
theorem pump_fires_strictly_overdue (env : Entry → List Entry) (now : ℤ)
    (pr : List (Nat × Nat)) (h : Hub) (hwf : h.scheduled.WF)
    (hne : ¬(h.ready = [] ∧ h.scheduled.count = 0 ∧ h.registered = [])) :
    ∃ r, pump env now pr h = some r ∧
      (liveList h.scheduled.queue h.scheduled.removed).Perm
        (r.fired ++
          liveList r.hub.scheduled.queue r.hub.scheduled.removed) ∧
      (∀ i ∈ r.fired, i.due < now) ∧
      (∀ i ∈ liveList r.hub.scheduled.queue r.hub.scheduled.removed,
        now ≤ i.due) ∧
      List.Sorted (fun a b : Item => a.due ≤ b.due) r.fired := by
  obtain ⟨r, t, heq, _, _, _, _, _, _, _, hperm, hdue, hleft, hsort⟩ :=
    pump_some env now pr h hwf hne
  exact ⟨r, heq, hperm, hdue, hleft, hsort⟩

/-- Claim C3 (counterexample): a live item due exactly at the current time
(`due ≤ now` holds) is NOT fired by the pump iteration — the firing
condition is strict. -/
theorem pump_boundary_item_not_fired :
    (Scheduler.mkItem 0 0 7 []).due ≤ 0 ∧
    Scheduler.mkItem 0 0 7 [] ∈
      liveList hubBoundary.scheduled.queue hubBoundary.scheduled.removed ∧
    (pump envNil 0 [] hubBoundary).map PumpResult.fired = some [] := by
  decide

/-- Witness for the amended C3 theorem at a concrete input. -/
theorem pump_fires_strictly_overdue_witness :
    ∃ r, pump envNil 0 [] hubOverdue = some r ∧
      (liveList hubOverdue.scheduled.queue hubOverdue.scheduled.removed).Perm
        (r.fired ++
          liveList r.hub.scheduled.queue r.hub.scheduled.removed) ∧
      (∀ i ∈ r.fired, i.due < 0) ∧
      (∀ i ∈ liveList r.hub.scheduled.queue r.hub.scheduled.removed,
        (0:ℤ) ≤ i.due) ∧
      List.Sorted (fun a b : Item => a.due ≤ b.due) r.fired :=
  pump_fires_strictly_overdue envNil 0 [] hubOverdue (by decide) (by decide)

/-- Claim C5: the ready deque is snapshotted — exactly the entries present
at the start of the tick run, in FIFO (enqueue) order, and every entry
appended to `self.ready` while the snapshot runs lands in the fresh deque
consumed only by the next tick; within `pump`, the entries run are exactly
`self.ready` at entry. -/
theorem pump_ready_snapshot (env : Entry → List Entry) :
    (∀ snap acc, drainReady env snap acc = (snap, acc ++ snap.bind env)) ∧
    (∀ now pr h r, pump env now pr h = some r → r.alive = true →
      r.ran = h.ready) := by
  refine ⟨drainReady_eq env, ?_⟩
  intro now pr h r hp ha
  unfold pump at hp
  by_cases hne : (h.ready = [] ∧ h.scheduled.count = 0 ∧ h.registered = [])
  · rw [if_pos hne] at hp
    simp only [Option.some.injEq] at hp
    rw [← hp] at ha
    cases ha
  · rw [if_neg hne] at hp
    cases hpt : pumpTimeout h.scheduled now with
    | none => rw [hpt] at hp; cases hp
    | some p =>
      obtain ⟨s1, t⟩ := p
      rw [hpt] at hp
      cases hfl : fireLoop env now s1 (drainReady env h.ready []).2 with
      | none => simp [hfl] at hp
      | some q =>
        obtain ⟨s2, q2⟩ := q
        obtain ⟨ready2, fired⟩ := q2
        simp only [hfl] at hp
        simp only [Option.some.injEq] at hp
        rw [← hp]
        show (drainReady env h.ready []).1 = h.ready
        rw [drainReady_eq]

/-- Witness for the C5 theorem at a concrete input. -/
theorem pump_ready_snapshot_witness :
    drainReady envNil [⟨9, []⟩] [] = ([⟨9, []⟩], []) ∧
    ∀ r, pump envNil 0 [] hubOverdue = some r → r.alive = true →
      r.ran = hubOverdue.ready :=
  ⟨by
    have h := (pump_ready_snapshot envNil).1 [⟨9, []⟩] []
    simpa [envNil] using h,
   fun r hp ha => (pump_ready_snapshot envNil).2 0 [] hubOverdue r hp ha⟩

/-- Claim C6: `pump` returns `False` exactly when the Ready Deque, the live
timer count, and the fd registrations are all empty at entry; and whenever
the main loop breaks out on such a tick, the stopped latch has been sent
`True`. -/
theorem pump_deadlock_shutdown (env : Entry → List Entry) :
    (∀ now pr h, (pump env now pr h).map PumpResult.alive = some false ↔
      (h.ready = [] ∧ h.scheduled.count = 0 ∧ h.registered = [])) ∧
    (∀ inputs h l h2 l2, runMain env inputs h l = some (h2, l2, true) →
      l2.val = some (Value.bool true)) :=
  ⟨fun now pr h => pump_alive_iff env now pr h,
   fun inputs h l h2 l2 hr => runMain_finished env inputs h l h2 l2 hr⟩

/-- Witness for the C6 theorem at a concrete input. -/
theorem pump_deadlock_shutdown_witness :
    (pump envNil 0 [] hubEmpty).map PumpResult.alive = some false ∧
    (⟨some (Value.bool true)⟩ : Latch).val = some (Value.bool true) :=
  ⟨((pump_deadlock_shutdown envNil).1 0 [] hubEmpty).mpr ⟨rfl, rfl, rfl⟩,
   (pump_deadlock_shutdown envNil).2 [(0, [])] hubEmpty ⟨none⟩ hubEmpty
     ⟨some (Value.bool true)⟩ (by decide)⟩

/-- Claim C9: the event dispatcher ignores events for unregistered fds;
a POLLERR event closes every sender registered for its fd; any other event
on a registered fd sends `True` on that mask's sender exactly when the
sender currently has a parked recver (and then unparks it). -/
theorem dispatch_routes_events (regs : Registered) (fd mask : Nat) :
    (regs.lookup fd = none → dispatchOne regs (fd, mask) = .ok regs) ∧
    (∀ masks, regs.lookup fd = some masks → mask = POLLERR →
      dispatchOne regs (fd, mask) =
        .ok (modifyAssoc regs fd (fun ms => ms.map fun q => (q.1, q.2.close))) ∧
      (∀ p ∈ modifyAssoc regs fd (fun ms => ms.map fun q => (q.1, q.2.close)),
        p.1 = fd → ∀ q ∈ p.2, q.2.closed = true)) ∧
    (∀ masks sd, regs.lookup fd = some masks → mask ≠ POLLERR →
      masks.lookup mask = some sd →
      (sd.ready = true →
        dispatchOne regs (fd, mask) =
          .ok (modifyAssoc regs fd (fun ms => modifyAssoc ms mask Sender.sendTrue)) ∧
        (Sender.sendTrue sd).sent = sd.sent ++ [Value.bool true] ∧
        (Sender.sendTrue sd).ready = false) ∧
      (sd.ready = false → dispatchOne regs (fd, mask) = .ok regs)) := by
  refine ⟨?_, ?_, ?_⟩
  · intro hlk
    simp [dispatchOne, hlk]
  · intro masks hlk hmask
    subst hmask
    refine ⟨by simp [dispatchOne, hlk], ?_⟩
    intro p hp hpfd q hq
    simp only [modifyAssoc, List.mem_map] at hp
    obtain ⟨orig, _, heqp⟩ := hp
    by_cases ho : orig.1 = fd
    · rw [if_pos ho] at heqp
      rw [← heqp] at hq
      simp only [List.mem_map] at hq
      obtain ⟨oq, _, hoq⟩ := hq
      rw [← hoq]
      rfl
    · rw [if_neg ho] at heqp
      rw [← heqp] at hpfd
      exact absurd hpfd ho
  · intro masks sd hlk hmask hsd
    constructor
    · intro hready
      exact ⟨by simp [dispatchOne, hlk, hmask, hsd, hready], rfl, rfl⟩
    · intro hready
      simp [dispatchOne, hlk, hmask, hsd, hready]

/-- Witness for the C9 theorem at a concrete input. -/
theorem dispatch_routes_events_witness :
    dispatchOne regsSample (3, POLLERR) =
      .ok (modifyAssoc regsSample 3 (fun ms => ms.map fun q => (q.1, q.2.close))) :=
  ((dispatch_routes_events regsSample 3 POLLERR).2.1
    [(POLLIN, ⟨true, false, []⟩)] (by decide) rfl).1

/-- Claim C10: the computed poll timeout is never strictly positive, so the
no-registrations `time.sleep` branch is unreachable; hence a hub with no
registered fds and only future-due live timer items pumps without blocking
— nothing fires, nothing polls, nothing sleeps — and the loop stays live
(busy-spins) until a timer becomes due. -/
theorem pump_never_blocks_without_registrations (env : Entry → List Entry)
    (now : ℤ) (pr : List (Nat × Nat)) (h : Hub) (hwf : h.scheduled.WF)
    (hreg : h.registered = [])
    (hfut : ∀ i ∈ liveList h.scheduled.queue h.scheduled.removed, now < i.due)
    (hlive : h.scheduled.live ≠ 0) :
    (∀ s1 t, pumpTimeout h.scheduled now = some (s1, t) → ¬ t > 0) ∧
    ∃ r, pump env now pr h = some r ∧ r.slept = false ∧ r.polled = none ∧
      r.fired = [] ∧ r.alive = true := by
  constructor
  · intro s1 t hpt
    exact not_lt.mpr (pumpTimeout_nonpos hpt)
  · have hc : h.scheduled.count ≠ 0 := by
      rw [hwf.2.2.2]
      exact_mod_cast hlive
    have hne : ¬(h.ready = [] ∧ h.scheduled.count = 0 ∧ h.registered = []) :=
      fun hemp => hc hemp.2.1
    obtain ⟨r, t, heq, halive, hslept, _, _, hpolled, _, _, hperm, hdue, _, _⟩ :=
      pump_some env now pr h hwf hne
    refine ⟨r, heq, hslept, ?_, ?_, halive⟩
    · rw [hpolled, if_pos hreg]
    · apply List.eq_nil_iff_forall_not_mem.mpr
      intro i hi
      have himem : i ∈ liveList h.scheduled.queue h.scheduled.removed :=
        hperm.symm.subset (List.mem_append_left _ hi)
      have h1 := hdue i hi
      have h2 := hfut i himem
      omega

/-- Witness for the C10 theorem at a concrete input. -/
theorem pump_never_blocks_without_registrations_witness :
    ∃ r, pump envNil 0 [] hubFuture = some r ∧ r.slept = false ∧
      r.polled = none ∧ r.fired = [] ∧ r.alive = true :=
  (pump_never_blocks_without_registrations envNil 0 [] hubFuture
    (by decide) rfl (by decide) (by decide)).2

/-- Claim C2 (code bug): after its initial sleep, `Hub.stop` does close
every registered fd sender, but as soon as the timer heap holds any live
item its drain loop calls `throw_to`, whose first statement is
`raise Exception("REMOVE throw_to")` — so `stop` raises that exception
instead of delivering Stop to the scheduled tasks, and it never reaches the
await of the stopped latch. -/
theorem stop_raises_remove_throw_to (h : Hub) (hwf : h.scheduled.WF)
    (hlive : h.scheduled.live ≠ 0) :
    (stopAfterSleep h).2 = Except.error "REMOVE throw_to" ∧
    ∀ p ∈ (stopAfterSleep h).1, ∀ q ∈ p.2, q.2.closed = true := by
  constructor
  · show stopDrain (h.scheduled.queue.length + 1) h.scheduled = _
    have hc : h.scheduled.count ≠ 0 := by
      rw [hwf.2.2.2]
      exact_mod_cast hlive
    obtain ⟨s2, m, hpop, _⟩ := Scheduler.pop_spec hwf hlive
    simp [stopDrain, hc, hpop, throw_to]
  · intro p hp q hq
    simp only [stopAfterSleep, List.mem_map] at hp
    obtain ⟨orig, _, heqp⟩ := hp
    rw [← heqp] at hq
    simp only [List.mem_map] at hq
    obtain ⟨oq, _, hoq⟩ := hq
    rw [← hoq]
    rfl

/-- Witness for the C2 theorem at the claim's failing input: one registered
fd, one live scheduled item. -/
theorem stop_raises_remove_throw_to_witness :
    (stopAfterSleep hubStopSample).2 = Except.error "REMOVE throw_to" ∧
    (stopAfterSleep hubStopSample).1 =
      [(3, [(POLLIN, ⟨true, true, []⟩)])] :=
  ⟨(stop_raises_remove_throw_to hubStopSample (by decide) (by decide)).1,
   by decide⟩

end Vanilla
